import Mathlib

/-!
Verification of the in-memory vector similarity search implemented in
`Document Embeddings and Vector DB.ipynb`.

The notebook's core is

  def retrieve_relevant_documents(doc_embeddings, query_embedding, k = 1):
      cosine_similarities = (doc_embeddings @ query_embedding) /
          (np.linalg.norm(doc_embeddings, axis = 1).T * np.linalg.norm(query_embedding))
      sim_scores = np.argsort(cosine_similarities)
      return [{'document' : sample_docs[i], 'score' : cosine_similarities[i]}
              for i in sim_scores[::-1][:k]]

together with

  def embed_documents(docs): return np.array(embedding_function.embed_documents(docs))
  def embed_query(query):    return np.array(embedding_function.embed_documents([query]))[0,:]

We embed vectors as lists of rationals.  The float score
`dot / (norm_row * norm_query)` is represented exactly by the pair
`(dot, sqnorm_row * sqnorm_query)`, standing for `dot / sqrt (sqnorm_row * sqnorm_query)`;
a zero denominator marks the unguarded `0.0 / 0.0 = NaN` (whenever the
denominator vanishes, one of the two vectors is all zero, so the dot
product vanishes too).  `np.argsort` is modelled as the ascending sort on
indices with NaN ordered after every finite value (numpy's value order for
sorting floats) and ties resolved by index order.  numpy's default sort
kind is an unstable introsort, so its order among tied values is
input-dependent and unspecified; resolving ties by index makes the model
deterministic, and it coincides with numpy's actual behaviour on small
arrays (below the introsort threshold numpy runs a stable insertion sort),
in particular on every concrete instance appearing below.  No theorem
below relies on the modelled tie order except in the two-record case,
where it provably is numpy's.
-/

namespace VectorDB

/-- A vector: an ordered list of rationals (exact-arithmetic model of the
numpy float vectors). -/
abbrev Vec := List ℚ

/-- Dot product: elementwise product, then sum (one row of
`doc_embeddings @ query_embedding`). -/
def dot (v w : Vec) : ℚ :=
  (List.zipWith (fun a b => a * b) v w).sum

/-- Squared Euclidean norm, `np.linalg.norm(v) ** 2`, kept squared so that
everything stays rational. -/
def sqnorm (v : Vec) : ℚ := dot v v

/-- One float similarity score, represented exactly: the value is the real
number `num / sqrt den2` when `den2 > 0` (`den2` is the product of the two
squared norms, so `sqrt den2` is the product of the two norms), and the
float NaN when `den2 = 0`, since the code divides unguarded and the
numerator is then 0 as well (`0.0 / 0.0 = NaN`). -/
structure Score where
  num : ℚ
  den2 : ℚ
deriving DecidableEq, Repr

/-- NaN marker.  Every score the code produces has `den2` a product of
squared norms, hence nonnegative; `den2 ≤ 0` therefore marks exactly the
division-by-zero case, whose float value is NaN. -/
def Score.isNaN (s : Score) : Bool := decide (s.den2 ≤ 0)

/-- The ascending comparison underlying `np.argsort` on float values:
the usual order on finite values, with NaN sorting after every finite
value (numpy places NaNs last).  On finite values `num / sqrt den2` the
comparison is expressed rationally by cross-multiplying and squaring,
with the sign analysis that squaring requires. -/
def scoreLe (s t : Score) : Bool :=
  if s.den2 ≤ 0 then decide (t.den2 ≤ 0)
  else if t.den2 ≤ 0 then true
  else decide ((s.num ≤ 0 ∧ 0 ≤ t.num) ∨
    (0 ≤ s.num ∧ 0 ≤ t.num ∧ s.num ^ 2 * t.den2 ≤ t.num ^ 2 * s.den2) ∨
    (s.num ≤ 0 ∧ t.num ≤ 0 ∧ t.num ^ 2 * s.den2 ≤ s.num ^ 2 * t.den2))

/-- The vector of similarity scores
`(doc_embeddings @ query_embedding) / (np.linalg.norm(doc_embeddings, axis=1).T * np.linalg.norm(query_embedding))`,
one score per stored row, in storage order. -/
def cosineSimilarities (rows : List Vec) (q : Vec) : List Score :=
  rows.map (fun r => ⟨dot r q, sqnorm r * sqnorm q⟩)

/-- Comparison on row indices used to model `np.argsort`: ascending by
score, with ties resolved by index order.  The default `np.argsort` is an
unstable introsort whose tie order is unspecified for large arrays; index
order is one deterministic refinement of it, and the one numpy itself
produces on small arrays, where it runs a stable insertion sort. -/
def idxLe (scores : List Score) (i j : ℕ) : Bool :=
  scoreLe (scores.getD i ⟨0, 0⟩) (scores.getD j ⟨0, 0⟩) &&
    (!scoreLe (scores.getD j ⟨0, 0⟩) (scores.getD i ⟨0, 0⟩) || decide (i ≤ j))

/-- `np.argsort(cosine_similarities)`: the indices `0, …, n-1` sorted
ascending by score.  `idxLe` resolves ties by index, making it a total
order, so any correct sort produces this unique result; see `idxLe` for
how the tie order relates to numpy's unstable default sort. -/
def argsort (scores : List Score) : List ℕ :=
  List.insertionSort (fun i j => idxLe scores i j = true) (List.range scores.length)

/-- `np.argsort(cosine_similarities)[::-1]`: indices from the highest
score down to the lowest. -/
def ranking (scores : List Score) : List ℕ :=
  (argsort scores).reverse

/-- Errors that surface from the notebook code, plus the spec's
`EmptyIndexError`, which is modelled from the spec's error taxonomy and
never raised by the code. -/
inductive NpError where
  | dimensionMismatch
  | axisError
  | indexError
  | emptyIndex
deriving DecidableEq, Repr

/-- One element of the returned list: `{'document': …, 'score': …}`. -/
structure Entry where
  document : String
  score : Score
deriving DecidableEq, Repr

/-- `retrieve_relevant_documents(doc_embeddings, query_embedding, k)`,
with the global `sample_docs` passed explicitly.  Failure cases follow
numpy: an empty `doc_embeddings` list became an array of shape `(0,)`, so
the 1-D matmul raises a ValueError against a nonempty query (length 0 ≠ D,
modelled `dimensionMismatch`), and with an empty query the matmul yields a
scalar and `np.linalg.norm(..., axis=1)` raises an AxisError; a row length
differing from the query length raises ValueError from the matmul; a
selected index outside `sample_docs` raises IndexError in the final list
comprehension (checked up front here, observationally the same as failing
mid-comprehension since partial results are discarded). -/
def retrieve_relevant_documents (sample_docs : List String) (doc_embeddings : List Vec)
    (query_embedding : Vec) (k : ℕ) : Except NpError (List Entry) :=
  if doc_embeddings.isEmpty then
    if query_embedding.isEmpty then .error .axisError else .error .dimensionMismatch
  else if doc_embeddings.all (fun r => r.length == query_embedding.length) then
    let scores := cosineSimilarities doc_embeddings query_embedding
    let order := (ranking scores).take k
    if order.all (fun i => decide (i < sample_docs.length)) then
      .ok (order.map (fun i => ⟨sample_docs.getD i "", scores.getD i ⟨0, 0⟩⟩))
    else .error .indexError
  else .error .dimensionMismatch

/-- `embed_documents(docs)`: the external embedding model
(`embedding_function.embed_documents`) is the parameter `P`. -/
def embed_documents (P : List String → List Vec) (docs : List String) : List Vec :=
  P docs

/-- `embed_query(query)`: the batch call on the one-element list, then row
0; indexing an empty result raises, hence the Option. -/
def embed_query (P : List String → List Vec) (query : String) : Option Vec :=
  (P [query])[0]?

deriving instance DecidableEq for Except

/-- The globals `retrieve_relevant_documents` reads. -/
structure IndexState where
  sample_docs : List String
  doc_embeddings : List Vec
deriving DecidableEq, Repr

/-- `retrieve_relevant_documents` with the globals it reads threaded as
explicit state.  The source only reads them, so the state passes through
unchanged. -/
def queryState (st : IndexState) (q : Vec) (k : ℕ) :
    Except NpError (List Entry) × IndexState :=
  (retrieve_relevant_documents st.sample_docs st.doc_embeddings q k, st)

/-! ### Basic facts about the rational kernel -/

theorem dot_cons (a b : ℚ) (t u : Vec) : dot (a :: t) (b :: u) = a * b + dot t u := by
  simp [dot]

theorem dot_nil_right (v : Vec) : dot v [] = 0 := by
  cases v <;> simp [dot]

theorem sqnorm_cons (a : ℚ) (t : Vec) : sqnorm (a :: t) = a * a + sqnorm t := by
  simp [sqnorm, dot]

theorem sqnorm_nonneg (v : Vec) : 0 ≤ sqnorm v := by
  induction v with
  | nil => simp [sqnorm, dot]
  | cons a t ih => rw [sqnorm_cons]; nlinarith [mul_self_nonneg a]

theorem dot_eq_zero_of_sqnorm_left {v : Vec} (h : sqnorm v = 0) (q : Vec) : dot v q = 0 := by
  induction v generalizing q with
  | nil => cases q <;> simp [dot]
  | cons a t ih =>
    rw [sqnorm_cons] at h
    have ha : a = 0 := by nlinarith [sqnorm_nonneg t, mul_self_nonneg a]
    have ht : sqnorm t = 0 := by nlinarith [sqnorm_nonneg t, mul_self_nonneg a]
    cases q with
    | nil => simp [dot]
    | cons b u => rw [dot_cons, ha, ih ht u]; ring

theorem dot_comm (v w : Vec) : dot v w = dot w v := by
  induction v generalizing w with
  | nil => cases w <;> simp [dot]
  | cons a t ih =>
    cases w with
    | nil => simp [dot]
    | cons b u => rw [dot_cons, dot_cons, ih u, mul_comm]

theorem dot_eq_zero_of_sqnorm_right {q : Vec} (h : sqnorm q = 0) (v : Vec) : dot v q = 0 := by
  rw [dot_comm]; exact dot_eq_zero_of_sqnorm_left h v

/-! ### The comparison is a total preorder -/

theorem scoreLe_nan_left {s t : Score} (h : s.den2 ≤ 0) :
    scoreLe s t = decide (t.den2 ≤ 0) := by
  unfold scoreLe; rw [if_pos h]

theorem scoreLe_true_of_nan_right {s t : Score} (hs : ¬ s.den2 ≤ 0) (h : t.den2 ≤ 0) :
    scoreLe s t = true := by
  unfold scoreLe; rw [if_neg hs, if_pos h]

theorem scoreLe_valid_iff {s t : Score} (hs : ¬ s.den2 ≤ 0) (ht : ¬ t.den2 ≤ 0) :
    scoreLe s t = true ↔
      ((s.num ≤ 0 ∧ 0 ≤ t.num) ∨
       (0 ≤ s.num ∧ 0 ≤ t.num ∧ s.num ^ 2 * t.den2 ≤ t.num ^ 2 * s.den2) ∨
       (s.num ≤ 0 ∧ t.num ≤ 0 ∧ t.num ^ 2 * s.den2 ≤ s.num ^ 2 * t.den2)) := by
  unfold scoreLe; rw [if_neg hs, if_neg ht]; exact decide_eq_true_iff

theorem sq_mul_pos_nonpos_eq_zero {a x : ℚ} (hx : 0 < x) (h : a ^ 2 * x ≤ 0) : a = 0 := by
  have h2 : a ^ 2 ≤ 0 := by
    by_contra hcon
    push_neg at hcon
    nlinarith [mul_pos hcon hx]
  have h3 : a ^ 2 = 0 := le_antisymm h2 (sq_nonneg a)
  exact (pow_eq_zero_iff two_ne_zero).mp h3

theorem scoreLe_total (s t : Score) : scoreLe s t = true ∨ scoreLe t s = true := by
  by_cases hx : s.den2 ≤ 0 <;> by_cases hy : t.den2 ≤ 0
  · left; rw [scoreLe_nan_left hx]; exact decide_eq_true hy
  · right; exact scoreLe_true_of_nan_right hy hx
  · left; exact scoreLe_true_of_nan_right hx hy
  · rw [scoreLe_valid_iff hx hy, scoreLe_valid_iff hy hx]
    rcases le_total s.num 0 with hs | hs <;> rcases le_total t.num 0 with ht | ht
    · rcases le_total (t.num ^ 2 * s.den2) (s.num ^ 2 * t.den2) with h | h
      · exact Or.inl (Or.inr (Or.inr ⟨hs, ht, h⟩))
      · exact Or.inr (Or.inr (Or.inr ⟨ht, hs, h⟩))
    · exact Or.inl (Or.inl ⟨hs, ht⟩)
    · exact Or.inr (Or.inl ⟨ht, hs⟩)
    · rcases le_total (s.num ^ 2 * t.den2) (t.num ^ 2 * s.den2) with h | h
      · exact Or.inl (Or.inr (Or.inl ⟨hs, ht, h⟩))
      · exact Or.inr (Or.inr (Or.inl ⟨ht, hs, h⟩))

theorem scoreLe_trans {s t u : Score} (h1 : scoreLe s t = true) (h2 : scoreLe t u = true) :
    scoreLe s u = true := by
  by_cases hx : s.den2 ≤ 0 <;> by_cases hy : t.den2 ≤ 0 <;> by_cases hz : u.den2 ≤ 0
  · rw [scoreLe_nan_left hx]; exact decide_eq_true hz
  · rw [scoreLe_nan_left hx] at h1
    rw [scoreLe_nan_left (of_decide_eq_true h1)] at h2
    exact absurd (of_decide_eq_true h2) hz
  · rw [scoreLe_nan_left hx]; exact decide_eq_true hz
  · rw [scoreLe_nan_left hx] at h1
    exact absurd (of_decide_eq_true h1) hy
  · exact scoreLe_true_of_nan_right hx hz
  · rw [scoreLe_nan_left hy] at h2
    exact absurd (of_decide_eq_true h2) hz
  · exact scoreLe_true_of_nan_right hx hz
  · have hx' : 0 < s.den2 := lt_of_not_le hx
    have hy' : 0 < t.den2 := lt_of_not_le hy
    have hz' : 0 < u.den2 := lt_of_not_le hz
    rw [scoreLe_valid_iff hx hy] at h1
    rw [scoreLe_valid_iff hy hz] at h2
    rw [scoreLe_valid_iff hx hz]
    rcases h1 with ⟨ha, hb⟩ | ⟨ha, hb, hab⟩ | ⟨ha, hb, hab⟩ <;>
      rcases h2 with ⟨hb', hc⟩ | ⟨hb', hc, hbc⟩ | ⟨hb', hc, hbc⟩
    · exact Or.inl ⟨ha, hc⟩
    · exact Or.inl ⟨ha, hc⟩
    · have hb0 : t.num = 0 := le_antisymm hb' hb
      have hc0 : u.num = 0 := by
        refine sq_mul_pos_nonpos_eq_zero hy' ?_
        calc u.num ^ 2 * t.den2 ≤ t.num ^ 2 * u.den2 := hbc
          _ = 0 := by rw [hb0]; ring
      exact Or.inl ⟨ha, le_of_eq hc0.symm⟩
    · have hb0 : t.num = 0 := le_antisymm hb' hb
      have ha0 : s.num = 0 := by
        refine sq_mul_pos_nonpos_eq_zero hy' ?_
        calc s.num ^ 2 * t.den2 ≤ t.num ^ 2 * s.den2 := hab
          _ = 0 := by rw [hb0]; ring
      exact Or.inl ⟨le_of_eq ha0, hc⟩
    · refine Or.inr (Or.inl ⟨ha, hc, ?_⟩)
      nlinarith [mul_le_mul_of_nonneg_right hab (le_of_lt hz'),
        mul_le_mul_of_nonneg_right hbc (le_of_lt hx')]
    · have hb0 : t.num = 0 := le_antisymm hb' hb
      have ha0 : s.num = 0 := by
        refine sq_mul_pos_nonpos_eq_zero hy' ?_
        calc s.num ^ 2 * t.den2 ≤ t.num ^ 2 * s.den2 := hab
          _ = 0 := by rw [hb0]; ring
      have hc0 : u.num = 0 := by
        refine sq_mul_pos_nonpos_eq_zero hy' ?_
        calc u.num ^ 2 * t.den2 ≤ t.num ^ 2 * u.den2 := hbc
          _ = 0 := by rw [hb0]; ring
      exact Or.inl ⟨le_of_eq ha0, le_of_eq hc0.symm⟩
    · exact Or.inl ⟨ha, hc⟩
    · exact Or.inl ⟨ha, hc⟩
    · refine Or.inr (Or.inr ⟨ha, hc, ?_⟩)
      nlinarith [mul_le_mul_of_nonneg_right hab (le_of_lt hz'),
        mul_le_mul_of_nonneg_right hbc (le_of_lt hx')]

/-! ### The index comparison is a total order, so the sort is well behaved -/

theorem idxLe_eq_true_iff (scores : List Score) (i j : ℕ) :
    idxLe scores i j = true ↔
      scoreLe (scores.getD i ⟨0, 0⟩) (scores.getD j ⟨0, 0⟩) = true ∧
        (scoreLe (scores.getD j ⟨0, 0⟩) (scores.getD i ⟨0, 0⟩) = false ∨ i ≤ j) := by
  simp [idxLe]

theorem idxLe_total (scores : List Score) (i j : ℕ) :
    idxLe scores i j = true ∨ idxLe scores j i = true := by
  rcases scoreLe_total (scores.getD i ⟨0, 0⟩) (scores.getD j ⟨0, 0⟩) with hA | hB
  · by_cases hB : scoreLe (scores.getD j ⟨0, 0⟩) (scores.getD i ⟨0, 0⟩) = true
    · rcases Nat.le_total i j with hij | hij
      · exact Or.inl ((idxLe_eq_true_iff scores i j).mpr ⟨hA, Or.inr hij⟩)
      · exact Or.inr ((idxLe_eq_true_iff scores j i).mpr ⟨hB, Or.inr hij⟩)
    · exact Or.inl ((idxLe_eq_true_iff scores i j).mpr
        ⟨hA, Or.inl (Bool.eq_false_iff.mpr hB)⟩)
  · by_cases hA : scoreLe (scores.getD i ⟨0, 0⟩) (scores.getD j ⟨0, 0⟩) = true
    · rcases Nat.le_total i j with hij | hij
      · exact Or.inl ((idxLe_eq_true_iff scores i j).mpr ⟨hA, Or.inr hij⟩)
      · exact Or.inr ((idxLe_eq_true_iff scores j i).mpr ⟨hB, Or.inr hij⟩)
    · exact Or.inr ((idxLe_eq_true_iff scores j i).mpr
        ⟨hB, Or.inl (Bool.eq_false_iff.mpr hA)⟩)

theorem idxLe_trans {scores : List Score} {i j k : ℕ}
    (h1 : idxLe scores i j = true) (h2 : idxLe scores j k = true) :
    idxLe scores i k = true := by
  rw [idxLe_eq_true_iff] at h1 h2 ⊢
  obtain ⟨hij, hij'⟩ := h1
  obtain ⟨hjk, hjk'⟩ := h2
  refine ⟨scoreLe_trans hij hjk, ?_⟩
  by_cases hki : scoreLe (scores.getD k ⟨0, 0⟩) (scores.getD i ⟨0, 0⟩) = true
  · refine Or.inr ?_
    have hkj : scoreLe (scores.getD k ⟨0, 0⟩) (scores.getD j ⟨0, 0⟩) = true :=
      scoreLe_trans hki hij
    have hji : scoreLe (scores.getD j ⟨0, 0⟩) (scores.getD i ⟨0, 0⟩) = true :=
      scoreLe_trans hjk hki
    have hij2 : i ≤ j := by
      rcases hij' with h | h
      · rw [hji] at h; cases h
      · exact h
    have hjk2 : j ≤ k := by
      rcases hjk' with h | h
      · rw [hkj] at h; cases h
      · exact h
    exact Nat.le_trans hij2 hjk2
  · exact Or.inl (Bool.eq_false_iff.mpr hki)

instance instIsTotalIdxLe (scores : List Score) :
    IsTotal ℕ (fun i j => idxLe scores i j = true) :=
  ⟨idxLe_total scores⟩

instance instIsTransIdxLe (scores : List Score) :
    IsTrans ℕ (fun i j => idxLe scores i j = true) :=
  ⟨fun _ _ _ => idxLe_trans⟩

theorem argsort_perm (scores : List Score) :
    List.Perm (argsort scores) (List.range scores.length) :=
  List.perm_insertionSort _ _

theorem argsort_sorted (scores : List Score) :
    (argsort scores).Sorted (fun i j => idxLe scores i j = true) :=
  List.sorted_insertionSort _ _

theorem ranking_perm (scores : List Score) :
    List.Perm (ranking scores) (List.range scores.length) :=
  (List.reverse_perm _).trans (argsort_perm scores)

theorem ranking_pairwise (scores : List Score) :
    (ranking scores).Pairwise (fun i j => idxLe scores j i = true) := by
  have h := argsort_sorted scores
  exact (List.pairwise_reverse).mpr h

theorem mem_ranking_iff (scores : List Score) (i : ℕ) :
    i ∈ ranking scores ↔ i < scores.length := by
  rw [(ranking_perm scores).mem_iff, List.mem_range]

theorem ranking_length (scores : List Score) :
    (ranking scores).length = scores.length := by
  rw [(ranking_perm scores).length_eq, List.length_range]

/-! ### The comparison agrees with the real cosine-similarity order -/

theorem scoreLe_iff_real {s t : Score} (hs : 0 < s.den2) (ht : 0 < t.den2) :
    scoreLe s t = true ↔
      (s.num : ℝ) / Real.sqrt ((s.den2 : ℚ) : ℝ) ≤ (t.num : ℝ) / Real.sqrt ((t.den2 : ℚ) : ℝ) := by
  have hs' : ¬ s.den2 ≤ 0 := not_le.mpr hs
  have ht' : ¬ t.den2 ≤ 0 := not_le.mpr ht
  have hx : (0 : ℝ) < ((s.den2 : ℚ) : ℝ) := by exact_mod_cast hs
  have hy : (0 : ℝ) < ((t.den2 : ℚ) : ℝ) := by exact_mod_cast ht
  have hsx : 0 < Real.sqrt ((s.den2 : ℚ) : ℝ) := Real.sqrt_pos.mpr hx
  have hsy : 0 < Real.sqrt ((t.den2 : ℚ) : ℝ) := Real.sqrt_pos.mpr hy
  rw [scoreLe_valid_iff hs' ht', div_le_div_iff₀ hsx hsy]
  constructor
  · rintro (⟨ha, hb⟩ | ⟨ha, hb, h⟩ | ⟨ha, hb, h⟩)
    · have ha' : ((s.num : ℚ) : ℝ) ≤ 0 := by exact_mod_cast ha
      have hb' : (0 : ℝ) ≤ ((t.num : ℚ) : ℝ) := by exact_mod_cast hb
      nlinarith [Real.sqrt_nonneg ((t.den2 : ℚ) : ℝ), Real.sqrt_nonneg ((s.den2 : ℚ) : ℝ),
        mul_nonneg hb' (le_of_lt hsx)]
    · have ha' : (0 : ℝ) ≤ ((s.num : ℚ) : ℝ) := by exact_mod_cast ha
      have hb' : (0 : ℝ) ≤ ((t.num : ℚ) : ℝ) := by exact_mod_cast hb
      have h' : ((s.num : ℚ) : ℝ) ^ 2 * ((t.den2 : ℚ) : ℝ) ≤
          ((t.num : ℚ) : ℝ) ^ 2 * ((s.den2 : ℚ) : ℝ) := by exact_mod_cast h
      calc ((s.num : ℚ) : ℝ) * Real.sqrt ((t.den2 : ℚ) : ℝ)
          = Real.sqrt (((s.num : ℚ) : ℝ) ^ 2 * ((t.den2 : ℚ) : ℝ)) := by
            rw [Real.sqrt_mul (sq_nonneg _), Real.sqrt_sq ha']
        _ ≤ Real.sqrt (((t.num : ℚ) : ℝ) ^ 2 * ((s.den2 : ℚ) : ℝ)) := Real.sqrt_le_sqrt h'
        _ = ((t.num : ℚ) : ℝ) * Real.sqrt ((s.den2 : ℚ) : ℝ) := by
            rw [Real.sqrt_mul (sq_nonneg _), Real.sqrt_sq hb']
    · have ha' : ((s.num : ℚ) : ℝ) ≤ 0 := by exact_mod_cast ha
      have hb' : ((t.num : ℚ) : ℝ) ≤ 0 := by exact_mod_cast hb
      have h' : ((t.num : ℚ) : ℝ) ^ 2 * ((s.den2 : ℚ) : ℝ) ≤
          ((s.num : ℚ) : ℝ) ^ 2 * ((t.den2 : ℚ) : ℝ) := by exact_mod_cast h
      have key : (-((t.num : ℚ) : ℝ)) * Real.sqrt ((s.den2 : ℚ) : ℝ) ≤
          (-((s.num : ℚ) : ℝ)) * Real.sqrt ((t.den2 : ℚ) : ℝ) := by
        calc (-((t.num : ℚ) : ℝ)) * Real.sqrt ((s.den2 : ℚ) : ℝ)
            = Real.sqrt ((-((t.num : ℚ) : ℝ)) ^ 2 * ((s.den2 : ℚ) : ℝ)) := by
              rw [Real.sqrt_mul (sq_nonneg _), Real.sqrt_sq (by linarith)]
          _ = Real.sqrt (((t.num : ℚ) : ℝ) ^ 2 * ((s.den2 : ℚ) : ℝ)) := by ring_nf
          _ ≤ Real.sqrt (((s.num : ℚ) : ℝ) ^ 2 * ((t.den2 : ℚ) : ℝ)) := Real.sqrt_le_sqrt h'
          _ = Real.sqrt ((-((s.num : ℚ) : ℝ)) ^ 2 * ((t.den2 : ℚ) : ℝ)) := by ring_nf
          _ = (-((s.num : ℚ) : ℝ)) * Real.sqrt ((t.den2 : ℚ) : ℝ) := by
              rw [Real.sqrt_mul (sq_nonneg _), Real.sqrt_sq (by linarith)]
      linarith
  · intro h
    rcases le_total s.num 0 with ha | ha <;> rcases le_total t.num 0 with hb | hb
    · refine Or.inr (Or.inr ⟨ha, hb, ?_⟩)
      have ha' : ((s.num : ℚ) : ℝ) ≤ 0 := by exact_mod_cast ha
      have hb' : ((t.num : ℚ) : ℝ) ≤ 0 := by exact_mod_cast hb
      have key : Real.sqrt (((t.num : ℚ) : ℝ) ^ 2 * ((s.den2 : ℚ) : ℝ)) ≤
          Real.sqrt (((s.num : ℚ) : ℝ) ^ 2 * ((t.den2 : ℚ) : ℝ)) := by
        have e1 : Real.sqrt (((t.num : ℚ) : ℝ) ^ 2 * ((s.den2 : ℚ) : ℝ))
            = (-((t.num : ℚ) : ℝ)) * Real.sqrt ((s.den2 : ℚ) : ℝ) := by
          rw [show ((t.num : ℚ) : ℝ) ^ 2 = (-((t.num : ℚ) : ℝ)) ^ 2 by ring,
            Real.sqrt_mul (sq_nonneg _), Real.sqrt_sq (by linarith)]
        have e2 : Real.sqrt (((s.num : ℚ) : ℝ) ^ 2 * ((t.den2 : ℚ) : ℝ))
            = (-((s.num : ℚ) : ℝ)) * Real.sqrt ((t.den2 : ℚ) : ℝ) := by
          rw [show ((s.num : ℚ) : ℝ) ^ 2 = (-((s.num : ℚ) : ℝ)) ^ 2 by ring,
            Real.sqrt_mul (sq_nonneg _), Real.sqrt_sq (by linarith)]
        rw [e1, e2]
        linarith
      have hcast := (Real.sqrt_le_sqrt_iff (by positivity)).mp key
      exact_mod_cast hcast
    · exact Or.inl ⟨ha, hb⟩
    · have ha' : (0 : ℝ) ≤ ((s.num : ℚ) : ℝ) := by exact_mod_cast ha
      have hb' : ((t.num : ℚ) : ℝ) ≤ 0 := by exact_mod_cast hb
      have h1 : (0 : ℝ) ≤ ((s.num : ℚ) : ℝ) * Real.sqrt ((t.den2 : ℚ) : ℝ) :=
        mul_nonneg ha' (le_of_lt hsy)
      have h2 : ((t.num : ℚ) : ℝ) * Real.sqrt ((s.den2 : ℚ) : ℝ) ≤ 0 := by
        nlinarith [le_of_lt hsx]
      have hz1 : ((s.num : ℚ) : ℝ) * Real.sqrt ((t.den2 : ℚ) : ℝ) = 0 :=
        le_antisymm (le_trans h h2) h1
      have hz2 : ((t.num : ℚ) : ℝ) * Real.sqrt ((s.den2 : ℚ) : ℝ) = 0 :=
        le_antisymm h2 (le_trans h1 h)
      have hs0 : s.num = 0 := by
        have hr : ((s.num : ℚ) : ℝ) = 0 := by
          rcases mul_eq_zero.mp hz1 with h0 | h0
          · exact h0
          · exact absurd h0 (ne_of_gt hsy)
        exact_mod_cast hr
      have ht0 : t.num = 0 := by
        have hr : ((t.num : ℚ) : ℝ) = 0 := by
          rcases mul_eq_zero.mp hz2 with h0 | h0
          · exact h0
          · exact absurd h0 (ne_of_gt hsx)
        exact_mod_cast hr
      exact Or.inl ⟨le_of_eq hs0, le_of_eq ht0.symm⟩
    · refine Or.inr (Or.inl ⟨ha, hb, ?_⟩)
      have ha' : (0 : ℝ) ≤ ((s.num : ℚ) : ℝ) := by exact_mod_cast ha
      have hb' : (0 : ℝ) ≤ ((t.num : ℚ) : ℝ) := by exact_mod_cast hb
      have key : Real.sqrt (((s.num : ℚ) : ℝ) ^ 2 * ((t.den2 : ℚ) : ℝ)) ≤
          Real.sqrt (((t.num : ℚ) : ℝ) ^ 2 * ((s.den2 : ℚ) : ℝ)) := by
        rw [Real.sqrt_mul (sq_nonneg _), Real.sqrt_sq ha',
          Real.sqrt_mul (sq_nonneg _), Real.sqrt_sq hb']
        exact h
      have hcast := (Real.sqrt_le_sqrt_iff (by positivity)).mp key
      exact_mod_cast hcast

/-! ### Unfolding the retrieval on its success path -/

theorem cosineSimilarities_length (rows : List Vec) (q : Vec) :
    (cosineSimilarities rows q).length = rows.length :=
  List.length_map rows _

theorem cosineSimilarities_getD {rows : List Vec} {q : Vec} {i : ℕ} (h : i < rows.length) :
    (cosineSimilarities rows q).getD i ⟨0, 0⟩ =
      ⟨dot (rows.getD i []) q, sqnorm (rows.getD i []) * sqnorm q⟩ := by
  have h2 : i < (cosineSimilarities rows q).length := by
    rwa [cosineSimilarities_length]
  rw [List.getD_eq_getElem _ _ h2, List.getD_eq_getElem _ _ h]
  simp [cosineSimilarities]

theorem retrieve_eq_ok {sd : List String} {rows : List Vec} {q : Vec} {k : ℕ}
    (hne : rows ≠ []) (hdim : ∀ r ∈ rows, r.length = q.length)
    (hidx : ∀ i ∈ (ranking (cosineSimilarities rows q)).take k, i < sd.length) :
    retrieve_relevant_documents sd rows q k =
      .ok (((ranking (cosineSimilarities rows q)).take k).map
        (fun i => ⟨sd.getD i "", (cosineSimilarities rows q).getD i ⟨0, 0⟩⟩)) := by
  have h1 : rows.isEmpty = false := by simpa [List.isEmpty_iff] using hne
  have h2 : rows.all (fun r => r.length == q.length) = true := by
    rw [List.all_eq_true]
    intro r hr
    simpa using hdim r hr
  have h3 : ((ranking (cosineSimilarities rows q)).take k).all
      (fun i => decide (i < sd.length)) = true := by
    rw [List.all_eq_true]
    intro i hi
    simpa using hidx i hi
  simp only [retrieve_relevant_documents, h1, h2, h3, Bool.false_eq_true, if_false, if_true]

/-! ### Claims -/

/-- C7: query is a read-only operation: for every invocation, the stored
collection of documents and vectors (the globals the function reads) is
unchanged after the call. -/
theorem c7_query_read_only (st : IndexState) (q : Vec) (k : ℕ) :
    (queryState st q k).2 = st := rfl

/-- C6: query is deterministic: calling it again on the state left by the
first call, with the same query vector and k, returns exactly the same
result, tie order included. -/
theorem c6_query_deterministic (st : IndexState) (q : Vec) (k : ℕ) :
    (queryState ((queryState st q k).2) q k).1 = (queryState st q k).1 := rfl

/-- C9: embedding one text through the single-item path equals row 0 of
the batch path on the one-element list: `embed_query` literally is the
batch call on `[query]` followed by taking row 0, for every provider. -/
theorem c9_embed_query_eq_batch (P : List String → List Vec) (q : String) :
    embed_query P q = (embed_documents P [q])[0]? := rfl

/-- C4 counterexample: querying an index holding zero records does not
raise `EmptyIndexError`: the empty embedding array has shape `(0,)`, so
the matmul against the 1-dimensional query raises numpy's shape ValueError
(modelled `dimensionMismatch`). -/
theorem c4_counterexample :
    retrieve_relevant_documents ["a"] [] [1] 1 = .error .dimensionMismatch ∧
      retrieve_relevant_documents ["a"] [] [1] 1 ≠ .error .emptyIndex := by
  constructor <;> simp [retrieve_relevant_documents]

/-- C4 (amended): querying an index holding zero records does fail rather
than return an empty list, but with numpy's shape ValueError from the
matmul (the empty array has shape `(0,)`), or an axis error when the query
is empty too — not with `EmptyIndexError`. -/
theorem c4_amended (sd : List String) (q : Vec) (k : ℕ) :
    retrieve_relevant_documents sd [] q k =
      .error (if q.isEmpty then NpError.axisError else NpError.dimensionMismatch) := by
  cases q <;> simp [retrieve_relevant_documents]

/-- C5: querying an index whose records all have the established dimension
D with a vector of a different length fails with the dimension-mismatch
error (numpy's matmul ValueError), and the failed call leaves the index
state unchanged. -/
theorem c5_dimension_mismatch (st : IndexState) (q : Vec) (k : ℕ) (D : ℕ)
    (hne : st.doc_embeddings ≠ [])
    (hD : ∀ r ∈ st.doc_embeddings, r.length = D)
    (hq : q.length ≠ D) :
    queryState st q k = (.error .dimensionMismatch, st) := by
  obtain ⟨r0, rest, hrows⟩ : ∃ r0 rest, st.doc_embeddings = r0 :: rest := by
    cases hR : st.doc_embeddings with
    | nil => exact absurd hR hne
    | cons a l => exact ⟨a, l, rfl⟩
  have h1 : st.doc_embeddings.isEmpty = false := by simp [hrows]
  have h2 : st.doc_embeddings.all (fun r => r.length == q.length) = false := by
    rw [List.all_eq_false]
    refine ⟨r0, by simp [hrows], ?_⟩
    have hr0 : r0.length = D := hD r0 (by simp [hrows])
    have hne2 : r0.length ≠ q.length := by
      rw [hr0]
      exact fun hh => hq hh.symm
    simpa using hne2
  unfold queryState retrieve_relevant_documents
  simp only [h1, h2, Bool.false_eq_true, if_false]

theorem c5_witness :
    (((⟨["a"], [[1, 2]]⟩ : IndexState).doc_embeddings ≠ []) ∧
      (∀ r ∈ (⟨["a"], [[1, 2]]⟩ : IndexState).doc_embeddings, r.length = 2) ∧
      (([1] : Vec).length ≠ 2)) ∧
    queryState ⟨["a"], [[1, 2]]⟩ [1] 5 = (.error .dimensionMismatch, ⟨["a"], [[1, 2]]⟩) :=
  ⟨⟨by simp, by simp, by simp⟩,
    c5_dimension_mismatch ⟨["a"], [[1, 2]]⟩ [1] 5 2 (by simp) (by simp) (by simp)⟩

/-- C2 counterexample: with the single stored vector `[0]` (zero norm) and
query `[1]`, the similarity the code computes for the pair is the
unguarded `0.0/0.0`, a NaN, and it is propagated into the returned entry —
contrary to the claim that the division is guarded and yields exactly 0. -/
theorem c2_counterexample :
    retrieve_relevant_documents ["a"] [[0]] [1] 1 = .ok [⟨"a", ⟨0, 0⟩⟩] ∧
      Score.isNaN ⟨0, 0⟩ = true := by
  constructor
  · norm_num [retrieve_relevant_documents, ranking, argsort, cosineSimilarities, idxLe,
      scoreLe, dot, sqnorm, List.insertionSort, List.orderedInsert, List.range_succ]
  · norm_num [Score.isNaN]

/-- C2 (amended): if a stored vector or the query vector has zero norm,
the similarity the code computes for that pair is the NaN score `0/0`
(both the dot product and the product of squared norms vanish), not 0:
the division is unguarded. -/
theorem c2_amended (rows : List Vec) (q : Vec) (i : ℕ) (hi : i < rows.length)
    (hz : sqnorm (rows.getD i []) = 0 ∨ sqnorm q = 0) :
    (cosineSimilarities rows q).getD i ⟨0, 0⟩ = ⟨0, 0⟩ ∧
      ((cosineSimilarities rows q).getD i ⟨0, 0⟩).isNaN = true := by
  have hd : dot (rows.getD i []) q = 0 := by
    rcases hz with h | h
    · exact dot_eq_zero_of_sqnorm_left h q
    · exact dot_eq_zero_of_sqnorm_right h _
  have hp : sqnorm (rows.getD i []) * sqnorm q = 0 := by
    rcases hz with h | h
    · rw [h, zero_mul]
    · rw [h, mul_zero]
  rw [cosineSimilarities_getD hi, hd, hp]
  exact ⟨rfl, by norm_num [Score.isNaN]⟩

theorem c2_witness :
    ((0 : ℕ) < ([[0]] : List Vec).length ∧
      (sqnorm (([[0]] : List Vec).getD 0 []) = 0 ∨ sqnorm ([1] : Vec) = 0)) ∧
    ((cosineSimilarities [[0]] [1]).getD 0 ⟨0, 0⟩ = ⟨0, 0⟩ ∧
      ((cosineSimilarities [[0]] [1]).getD 0 ⟨0, 0⟩).isNaN = true) :=
  ⟨⟨by simp, Or.inl (by norm_num [sqnorm, dot])⟩,
    c2_amended [[0]] [1] 0 (by simp) (Or.inl (by norm_num [sqnorm, dot]))⟩

/-- C3 counterexample: two records with identical vectors tie on score;
the code returns the later-inserted record first (ascending argsort, then
reversal), not the earlier-inserted one the claim promises. -/
theorem c3_counterexample :
    retrieve_relevant_documents ["a", "b"] [[1], [1]] [1] 2
        = .ok [⟨"b", ⟨1, 1⟩⟩, ⟨"a", ⟨1, 1⟩⟩] ∧
      retrieve_relevant_documents ["a", "b"] [[1], [1]] [1] 2
        ≠ .ok [⟨"a", ⟨1, 1⟩⟩, ⟨"b", ⟨1, 1⟩⟩] := by
  have h : retrieve_relevant_documents ["a", "b"] [[1], [1]] [1] 2
      = .ok [⟨"b", ⟨1, 1⟩⟩, ⟨"a", ⟨1, 1⟩⟩] := by
    norm_num [retrieve_relevant_documents, ranking, argsort, cosineSimilarities, idxLe,
      scoreLe, dot, sqnorm, List.insertionSort, List.orderedInsert, List.range_succ]
  refine ⟨h, ?_⟩
  rw [h]
  simp

/-- C3 (amended): the tie is not broken by original insertion order.  In
the two-record tie case — the regime of the counterexample, where numpy's
default sort runs its stable small-array insertion sort, so the model's
tie order provably is numpy's — the later-inserted record ranks higher:
whenever the two stored records compare equal in the float sort order,
the query returns the second record first.  For larger collections the
default `np.argsort` kind is an unstable introsort, so the order among
tied records is input-dependent and unspecified; in any case it is not
the claimed earlier-inserted-first order. -/
theorem c3_amended (sd : List String) (v1 v2 q : Vec)
    (hd1 : v1.length = q.length) (hd2 : v2.length = q.length)
    (halign : 2 ≤ sd.length)
    (htie1 : scoreLe ⟨dot v1 q, sqnorm v1 * sqnorm q⟩
      ⟨dot v2 q, sqnorm v2 * sqnorm q⟩ = true)
    (htie2 : scoreLe ⟨dot v2 q, sqnorm v2 * sqnorm q⟩
      ⟨dot v1 q, sqnorm v1 * sqnorm q⟩ = true) :
    retrieve_relevant_documents sd [v1, v2] q 2 =
      .ok [⟨sd.getD 1 "", ⟨dot v2 q, sqnorm v2 * sqnorm q⟩⟩,
           ⟨sd.getD 0 "", ⟨dot v1 q, sqnorm v1 * sqnorm q⟩⟩] := by
  have hscores : cosineSimilarities [v1, v2] q
      = [⟨dot v1 q, sqnorm v1 * sqnorm q⟩, ⟨dot v2 q, sqnorm v2 * sqnorm q⟩] := by
    simp [cosineSimilarities]
  have h01 : idxLe (cosineSimilarities [v1, v2] q) 0 1 = true := by
    rw [idxLe_eq_true_iff, hscores]
    exact ⟨by simpa using htie1, Or.inr (by omega)⟩
  have hrank : ranking (cosineSimilarities [v1, v2] q) = [1, 0] := by
    unfold ranking argsort
    rw [cosineSimilarities_length]
    norm_num [List.range_succ, List.insertionSort, List.orderedInsert, h01]
  have hidx : ∀ i ∈ (ranking (cosineSimilarities [v1, v2] q)).take 2, i < sd.length := by
    rw [hrank]
    intro i hi
    simp only [List.take_succ_cons, List.take_zero, List.mem_cons, List.not_mem_nil,
      or_false] at hi
    rcases hi with rfl | rfl <;> omega
  have hdim : ∀ r ∈ ([v1, v2] : List Vec), r.length = q.length := by
    intro r hr
    simp only [List.mem_cons, List.not_mem_nil, or_false] at hr
    rcases hr with rfl | rfl
    · exact hd1
    · exact hd2
  have hok := @retrieve_eq_ok sd [v1, v2] q 2 (by simp) hdim hidx
  rw [hok, hrank, hscores]
  rfl

theorem c3_witness :
    (([1] : Vec).length = ([1] : Vec).length ∧
      ([1] : Vec).length = ([1] : Vec).length ∧
      2 ≤ (["a", "b"] : List String).length ∧
      scoreLe ⟨dot [1] [1], sqnorm [1] * sqnorm ([1] : Vec)⟩
        ⟨dot [1] [1], sqnorm [1] * sqnorm ([1] : Vec)⟩ = true) ∧
    retrieve_relevant_documents ["a", "b"] [[1], [1]] [1] 2 =
      .ok [⟨(["a", "b"] : List String).getD 1 "", ⟨dot [1] [1], sqnorm [1] * sqnorm ([1] : Vec)⟩⟩,
           ⟨(["a", "b"] : List String).getD 0 "", ⟨dot [1] [1], sqnorm [1] * sqnorm ([1] : Vec)⟩⟩] :=
  ⟨⟨rfl, rfl, by simp, by norm_num [scoreLe, dot, sqnorm]⟩,
    c3_amended ["a", "b"] [1] [1] [1] rfl rfl (by simp)
      (by norm_num [scoreLe, dot, sqnorm]) (by norm_num [scoreLe, dot, sqnorm])⟩

/-- C10: every entry the call returns pairs the similarity score computed
for row i of `doc_embeddings` with the text at index i of the global
`sample_docs` list: the text is looked up by row index in the global list,
not taken from the embeddings argument. -/
theorem c10_row_alignment (sd : List String) (rows : List Vec) (q : Vec) (k : ℕ)
    (out : List Entry) (hok : retrieve_relevant_documents sd rows q k = .ok out) :
    ∀ e ∈ out, ∃ i : ℕ, i < rows.length ∧ i < sd.length ∧
      e.document = sd.getD i "" ∧
      e.score = ⟨dot (rows.getD i []) q, sqnorm (rows.getD i []) * sqnorm q⟩ := by
  simp only [retrieve_relevant_documents] at hok
  by_cases h1 : rows.isEmpty = true
  · rw [if_pos h1] at hok
    by_cases h2 : q.isEmpty = true
    · rw [if_pos h2] at hok; exact absurd hok (by simp)
    · rw [if_neg h2] at hok; exact absurd hok (by simp)
  · rw [if_neg h1] at hok
    by_cases h3 : (rows.all fun r => r.length == q.length) = true
    · rw [if_pos h3] at hok
      by_cases h4 : (((ranking (cosineSimilarities rows q)).take k).all
          (fun i => decide (i < sd.length))) = true
      · rw [if_pos h4, Except.ok.injEq] at hok
        subst hok
        intro e he
        obtain ⟨i, hi, hfe⟩ := List.mem_map.mp he
        have hmem : i ∈ ranking (cosineSimilarities rows q) := List.mem_of_mem_take hi
        have hilt : i < rows.length := by
          have hlt := (mem_ranking_iff _ i).mp hmem
          rwa [cosineSimilarities_length] at hlt
        have hisd : i < sd.length := by
          have hall := List.all_eq_true.mp h4 i hi
          simpa using hall
        refine ⟨i, hilt, hisd, ?_, ?_⟩
        · rw [← hfe]
        · rw [← hfe]
          simp only
          rw [cosineSimilarities_getD hilt]
      · rw [if_neg h4] at hok; exact absurd hok (by simp)
    · rw [if_neg h3] at hok; exact absurd hok (by simp)

theorem c10_witness :
    retrieve_relevant_documents ["a"] [[1]] [1] 1 = .ok [⟨"a", ⟨1, 1⟩⟩] ∧
      (∀ e ∈ [(⟨"a", ⟨1, 1⟩⟩ : Entry)], ∃ i : ℕ, i < ([[1]] : List Vec).length ∧
        i < ["a"].length ∧ e.document = ["a"].getD i "" ∧
        e.score = ⟨dot (([[1]] : List Vec).getD i []) [1],
          sqnorm (([[1]] : List Vec).getD i []) * sqnorm ([1] : Vec)⟩) := by
  have h : retrieve_relevant_documents ["a"] [[1]] [1] 1 = .ok [⟨"a", ⟨1, 1⟩⟩] := by
    norm_num [retrieve_relevant_documents, ranking, argsort, cosineSimilarities, idxLe,
      scoreLe, dot, sqnorm, List.insertionSort, List.orderedInsert, List.range_succ]
  exact ⟨h, c10_row_alignment ["a"] [[1]] [1] 1 [⟨"a", ⟨1, 1⟩⟩] h⟩

/-- C1 counterexample: with stored records `[[0], [1]]` (the first of zero
norm), query `[1]`, and k = 2 ≥ record count, the call succeeds but the
returned sequence is not ordered by non-increasing cosine similarity as
the spec defines it (a zero-norm pair scores 0): the NaN score of the
zero-norm record sorts ahead of the genuine similarity 1. -/
theorem c1_counterexample :
    retrieve_relevant_documents ["a", "b"] [[0], [1]] [1] 2
        = .ok [⟨"a", ⟨0, 0⟩⟩, ⟨"b", ⟨1, 1⟩⟩] ∧
      ¬ List.Pairwise (fun e e' : Entry =>
        (if e'.score.den2 = 0 then (0 : ℝ)
          else (e'.score.num : ℝ) / Real.sqrt ((e'.score.den2 : ℚ) : ℝ)) ≤
        (if e.score.den2 = 0 then (0 : ℝ)
          else (e.score.num : ℝ) / Real.sqrt ((e.score.den2 : ℚ) : ℝ)))
        [⟨"a", ⟨0, 0⟩⟩, ⟨"b", ⟨1, 1⟩⟩] := by
  constructor
  · norm_num [retrieve_relevant_documents, ranking, argsort, cosineSimilarities, idxLe,
      scoreLe, dot, sqnorm, List.insertionSort, List.orderedInsert, List.range_succ]
  · intro hpw
    have h := (List.pairwise_cons.mp hpw).1 ⟨"b", ⟨1, 1⟩⟩ (by simp)
    norm_num [Real.sqrt_one] at h

/-- C1 (amended): for a non-empty record collection aligned with the
global document list, of consistent dimension, in which every stored
vector and the query have nonzero norm (so every similarity is a
well-defined real number rather than NaN), the query never raises for any
k: it returns exactly min(k, recordCount) entries, and when k is at least
the record count it returns all records, ordered by non-increasing real
cosine similarity. -/
theorem c1_topk_all_records (sd : List String) (rows : List Vec) (q : Vec)
    (hne : rows ≠ []) (hdim : ∀ r ∈ rows, r.length = q.length)
    (halign : rows.length ≤ sd.length)
    (hq : sqnorm q ≠ 0) (hr : ∀ r ∈ rows, sqnorm r ≠ 0) :
    ∀ k : ℕ, ∃ out : List Entry,
      retrieve_relevant_documents sd rows q k = .ok out ∧
      out.length = min k rows.length ∧
      (rows.length ≤ k →
        List.Perm out ((List.range rows.length).map (fun i =>
          (⟨sd.getD i "", ⟨dot (rows.getD i []) q,
            sqnorm (rows.getD i []) * sqnorm q⟩⟩ : Entry))) ∧
        out.Pairwise (fun e e' =>
          (e'.score.num : ℝ) / Real.sqrt ((e'.score.den2 : ℚ) : ℝ) ≤
          (e.score.num : ℝ) / Real.sqrt ((e.score.den2 : ℚ) : ℝ))) := by
  intro k
  have hslen : (cosineSimilarities rows q).length = rows.length :=
    cosineSimilarities_length rows q
  have hidx : ∀ i ∈ (ranking (cosineSimilarities rows q)).take k, i < sd.length := by
    intro i hi
    have hmem := List.mem_of_mem_take hi
    have hlt := (mem_ranking_iff _ i).mp hmem
    omega
  refine ⟨_, retrieve_eq_ok hne hdim hidx, ?_, ?_⟩
  · rw [List.length_map, List.length_take, ranking_length, hslen]
  · intro hk
    have htake : (ranking (cosineSimilarities rows q)).take k
        = ranking (cosineSimilarities rows q) := by
      apply List.take_of_length_le
      rw [ranking_length, hslen]
      exact hk
    rw [htake]
    have hvalid : ∀ i ∈ ranking (cosineSimilarities rows q),
        0 < ((cosineSimilarities rows q).getD i ⟨0, 0⟩).den2 := by
      intro i hi
      have hilt : i < rows.length := by
        have hlt := (mem_ranking_iff _ i).mp hi
        omega
      rw [cosineSimilarities_getD hilt]
      have hmem2 : rows.getD i [] ∈ rows := by
        rw [List.getD_eq_getElem _ _ hilt]
        exact List.getElem_mem hilt
      have h1 : 0 < sqnorm (rows.getD i []) :=
        lt_of_le_of_ne (sqnorm_nonneg _) (Ne.symm (hr _ hmem2))
      have h2 : 0 < sqnorm q := lt_of_le_of_ne (sqnorm_nonneg _) (Ne.symm hq)
      exact mul_pos h1 h2
    constructor
    · have hperm : List.Perm
          ((ranking (cosineSimilarities rows q)).map (fun i =>
            (⟨sd.getD i "", (cosineSimilarities rows q).getD i ⟨0, 0⟩⟩ : Entry)))
          ((List.range (cosineSimilarities rows q).length).map (fun i =>
            (⟨sd.getD i "", (cosineSimilarities rows q).getD i ⟨0, 0⟩⟩ : Entry))) :=
        (ranking_perm _).map _
      have heq : (List.range (cosineSimilarities rows q).length).map (fun i =>
            (⟨sd.getD i "", (cosineSimilarities rows q).getD i ⟨0, 0⟩⟩ : Entry))
          = (List.range rows.length).map (fun i =>
            (⟨sd.getD i "", ⟨dot (rows.getD i []) q,
              sqnorm (rows.getD i []) * sqnorm q⟩⟩ : Entry)) := by
        rw [hslen]
        apply List.map_congr_left
        intro i hi
        rw [cosineSimilarities_getD (List.mem_range.mp hi)]
      exact heq ▸ hperm
    · apply List.pairwise_map.mpr
      refine List.Pairwise.imp_of_mem ?_ (ranking_pairwise _)
      intro i j hi hj hji
      have hsLe : scoreLe ((cosineSimilarities rows q).getD j ⟨0, 0⟩)
          ((cosineSimilarities rows q).getD i ⟨0, 0⟩) = true := by
        rw [idxLe_eq_true_iff] at hji
        exact hji.1
      exact (scoreLe_iff_real (hvalid j hj) (hvalid i hi)).mp hsLe

theorem c1_witness :
    (([[1], [2]] : List Vec) ≠ [] ∧
      (∀ r ∈ ([[1], [2]] : List Vec), r.length = ([1] : Vec).length) ∧
      ([[1], [2]] : List Vec).length ≤ ["a", "b"].length ∧
      sqnorm ([1] : Vec) ≠ 0 ∧
      (∀ r ∈ ([[1], [2]] : List Vec), sqnorm r ≠ 0)) ∧
    (∀ k : ℕ, ∃ out : List Entry,
      retrieve_relevant_documents ["a", "b"] [[1], [2]] [1] k = .ok out ∧
      out.length = min k ([[1], [2]] : List Vec).length ∧
      (([[1], [2]] : List Vec).length ≤ k →
        List.Perm out ((List.range ([[1], [2]] : List Vec).length).map (fun i =>
          (⟨["a", "b"].getD i "", ⟨dot (([[1], [2]] : List Vec).getD i []) [1],
            sqnorm (([[1], [2]] : List Vec).getD i []) * sqnorm ([1] : Vec)⟩⟩ : Entry))) ∧
        out.Pairwise (fun e e' =>
          (e'.score.num : ℝ) / Real.sqrt ((e'.score.den2 : ℚ) : ℝ) ≤
          (e.score.num : ℝ) / Real.sqrt ((e.score.den2 : ℚ) : ℝ)))) := by
  have hdim : ∀ r ∈ ([[1], [2]] : List Vec), r.length = ([1] : Vec).length := by
    intro r hr
    simp only [List.mem_cons, List.not_mem_nil, or_false] at hr
    rcases hr with rfl | rfl <;> rfl
  have hr : ∀ r ∈ ([[1], [2]] : List Vec), sqnorm r ≠ 0 := by
    intro r hr
    simp only [List.mem_cons, List.not_mem_nil, or_false] at hr
    rcases hr with rfl | rfl <;> norm_num [sqnorm, dot]
  exact ⟨⟨by simp, hdim, by simp, by norm_num [sqnorm, dot], hr⟩,
    c1_topk_all_records ["a", "b"] [[1], [2]] [1] (by simp) hdim (by simp)
      (by norm_num [sqnorm, dot]) hr⟩

/-- C8 counterexample: store `[[1], [2]]` and query with the stored vector
`[1]` (nonzero norm).  Both stored vectors have similarity exactly 1 to
the query, so no other stored vector is strictly higher, yet `query(v, 1)`
returns the other record (the later-inserted duplicate direction), not the
record of `v` itself. -/
theorem c8_counterexample :
    retrieve_relevant_documents ["a", "b"] [[1], [2]] [1] 1 = .ok [⟨"b", ⟨2, 4⟩⟩] ∧
      retrieve_relevant_documents ["a", "b"] [[1], [2]] [1] 1 ≠ .ok [⟨"a", ⟨1, 1⟩⟩] ∧
      (1 : ℝ) / Real.sqrt ((1 : ℚ) : ℝ) = 1 ∧
      (2 : ℝ) / Real.sqrt ((4 : ℚ) : ℝ) = 1 := by
  have h : retrieve_relevant_documents ["a", "b"] [[1], [2]] [1] 1 = .ok [⟨"b", ⟨2, 4⟩⟩] := by
    norm_num [retrieve_relevant_documents, ranking, argsort, cosineSimilarities, idxLe,
      scoreLe, dot, sqnorm, List.insertionSort, List.orderedInsert, List.range_succ]
  refine ⟨h, ?_, ?_, ?_⟩
  · rw [h]
    simp
  · norm_num [Real.sqrt_one]
  · have h4 : ((4 : ℚ) : ℝ) = (2 : ℝ) ^ 2 := by norm_num
    rw [h4, Real.sqrt_sq (by norm_num)]
    norm_num

/-- C8 (amended): if the stored vector at position i has nonzero norm and
every other stored record has strictly lower similarity to it (strictly —
an exact tie, e.g. a positive multiple of the vector, is instead returned
later-inserted-first), then querying with that vector and k = 1 returns
exactly that record, and its similarity is exactly 1 in exact
arithmetic. -/
theorem c8_self_similarity (sd : List String) (rows : List Vec) (i : ℕ)
    (hi : i < rows.length) (halign : rows.length ≤ sd.length)
    (hdim : ∀ r ∈ rows, r.length = (rows.getD i []).length)
    (hnz : sqnorm (rows.getD i []) ≠ 0)
    (hmax : ∀ j, j < rows.length → j ≠ i →
      scoreLe
        ⟨dot (rows.getD i []) (rows.getD i []),
          sqnorm (rows.getD i []) * sqnorm (rows.getD i [])⟩
        ⟨dot (rows.getD j []) (rows.getD i []),
          sqnorm (rows.getD j []) * sqnorm (rows.getD i [])⟩ = false) :
    retrieve_relevant_documents sd rows (rows.getD i []) 1 =
      .ok [⟨sd.getD i "", ⟨sqnorm (rows.getD i []),
        sqnorm (rows.getD i []) * sqnorm (rows.getD i [])⟩⟩] ∧
    ((sqnorm (rows.getD i []) : ℚ) : ℝ) /
        Real.sqrt (((sqnorm (rows.getD i []) * sqnorm (rows.getD i [])) : ℚ) : ℝ) = 1 := by
  have hne : rows ≠ [] := by
    intro hcon
    rw [hcon] at hi
    exact absurd hi (by simp)
  have hslen : (cosineSimilarities rows (rows.getD i [])).length = rows.length :=
    cosineSimilarities_length rows _
  -- the head of the ranking is i
  have hrlen : 0 < (ranking (cosineSimilarities rows (rows.getD i []))).length := by
    rw [ranking_length, hslen]
    omega
  obtain ⟨h0, t, hR⟩ : ∃ h0 t, ranking (cosineSimilarities rows (rows.getD i [])) = h0 :: t := by
    cases hRc : ranking (cosineSimilarities rows (rows.getD i [])) with
    | nil => rw [hRc] at hrlen; exact absurd hrlen (by simp)
    | cons a l => exact ⟨a, l, rfl⟩
  have hh0 : h0 = i := by
    by_contra hcon
    have hh0mem : h0 ∈ ranking (cosineSimilarities rows (rows.getD i [])) := by
      rw [hR]; exact List.mem_cons_self h0 t
    have hh0lt : h0 < rows.length := by
      have := (mem_ranking_iff _ h0).mp hh0mem
      omega
    have himem : i ∈ ranking (cosineSimilarities rows (rows.getD i [])) := by
      rw [mem_ranking_iff, hslen]
      exact hi
    have hitail : i ∈ t := by
      rw [hR] at himem
      rcases List.mem_cons.mp himem with h | h
      · exact absurd h.symm hcon
      · exact h
    have hpw := ranking_pairwise (cosineSimilarities rows (rows.getD i []))
    rw [hR] at hpw
    have hidx := (List.pairwise_cons.mp hpw).1 i hitail
    -- hidx : idxLe scores i h0 = true, hence scoreLe scores[i] scores[h0] = true
    have hsle := ((idxLe_eq_true_iff _ i h0).mp hidx).1
    rw [cosineSimilarities_getD hi, cosineSimilarities_getD hh0lt] at hsle
    have hfalse := hmax h0 hh0lt hcon
    rw [hsle] at hfalse
    cases hfalse
  have htake : (ranking (cosineSimilarities rows (rows.getD i []))).take 1 = [i] := by
    rw [hR, hh0]
    rfl
  have hidxs : ∀ j ∈ (ranking (cosineSimilarities rows (rows.getD i []))).take 1,
      j < sd.length := by
    rw [htake]
    intro j hj
    rcases List.mem_singleton.mp hj with rfl
    omega
  have hok := retrieve_eq_ok hne hdim hidxs
  rw [htake] at hok
  constructor
  · rw [hok]
    rw [List.map_singleton, cosineSimilarities_getD hi]
    rfl
  · have hpos : 0 < sqnorm (rows.getD i []) :=
      lt_of_le_of_ne (sqnorm_nonneg _) (Ne.symm hnz)
    have hposR : (0 : ℝ) < ((sqnorm (rows.getD i []) : ℚ) : ℝ) := by exact_mod_cast hpos
    have hcast : (((sqnorm (rows.getD i []) * sqnorm (rows.getD i [])) : ℚ) : ℝ)
        = ((sqnorm (rows.getD i []) : ℚ) : ℝ) * ((sqnorm (rows.getD i []) : ℚ) : ℝ) := by
      push_cast
      ring
    rw [hcast, Real.sqrt_mul_self (le_of_lt hposR)]
    exact div_self (ne_of_gt hposR)

theorem c8_witness :
    ((0 : ℕ) < ([[1, 0], [0, 2]] : List Vec).length ∧
      ([[1, 0], [0, 2]] : List Vec).length ≤ ["a", "b"].length ∧
      (∀ r ∈ ([[1, 0], [0, 2]] : List Vec),
        r.length = (([[1, 0], [0, 2]] : List Vec).getD 0 []).length) ∧
      sqnorm (([[1, 0], [0, 2]] : List Vec).getD 0 []) ≠ 0 ∧
      (∀ j, j < ([[1, 0], [0, 2]] : List Vec).length → j ≠ 0 →
        scoreLe
          ⟨dot (([[1, 0], [0, 2]] : List Vec).getD 0 []) (([[1, 0], [0, 2]] : List Vec).getD 0 []),
            sqnorm (([[1, 0], [0, 2]] : List Vec).getD 0 []) *
              sqnorm (([[1, 0], [0, 2]] : List Vec).getD 0 [])⟩
          ⟨dot (([[1, 0], [0, 2]] : List Vec).getD j []) (([[1, 0], [0, 2]] : List Vec).getD 0 []),
            sqnorm (([[1, 0], [0, 2]] : List Vec).getD j []) *
              sqnorm (([[1, 0], [0, 2]] : List Vec).getD 0 [])⟩ = false)) ∧
    (retrieve_relevant_documents ["a", "b"] [[1, 0], [0, 2]]
        (([[1, 0], [0, 2]] : List Vec).getD 0 []) 1 =
      .ok [⟨["a", "b"].getD 0 "", ⟨sqnorm (([[1, 0], [0, 2]] : List Vec).getD 0 []),
        sqnorm (([[1, 0], [0, 2]] : List Vec).getD 0 []) *
          sqnorm (([[1, 0], [0, 2]] : List Vec).getD 0 [])⟩⟩] ∧
      ((sqnorm (([[1, 0], [0, 2]] : List Vec).getD 0 []) : ℚ) : ℝ) /
          Real.sqrt (((sqnorm (([[1, 0], [0, 2]] : List Vec).getD 0 []) *
            sqnorm (([[1, 0], [0, 2]] : List Vec).getD 0 [])) : ℚ) : ℝ) = 1) := by
  have hdim : ∀ r ∈ ([[1, 0], [0, 2]] : List Vec),
      r.length = (([[1, 0], [0, 2]] : List Vec).getD 0 []).length := by
    intro r hr
    simp only [List.mem_cons, List.not_mem_nil, or_false] at hr
    rcases hr with rfl | rfl <;> rfl
  have hnz : sqnorm (([[1, 0], [0, 2]] : List Vec).getD 0 []) ≠ 0 := by
    norm_num [sqnorm, dot]
  have hmax : ∀ j, j < ([[1, 0], [0, 2]] : List Vec).length → j ≠ 0 →
      scoreLe
        ⟨dot (([[1, 0], [0, 2]] : List Vec).getD 0 []) (([[1, 0], [0, 2]] : List Vec).getD 0 []),
          sqnorm (([[1, 0], [0, 2]] : List Vec).getD 0 []) *
            sqnorm (([[1, 0], [0, 2]] : List Vec).getD 0 [])⟩
        ⟨dot (([[1, 0], [0, 2]] : List Vec).getD j []) (([[1, 0], [0, 2]] : List Vec).getD 0 []),
          sqnorm (([[1, 0], [0, 2]] : List Vec).getD j []) *
            sqnorm (([[1, 0], [0, 2]] : List Vec).getD 0 [])⟩ = false := by
    intro j hj hj0
    have hj2 : j < 2 := by simpa using hj
    have hj1 : j = 1 := by omega
    subst hj1
    norm_num [scoreLe, dot, sqnorm]
  exact ⟨⟨by simp, by simp, hdim, hnz, hmax⟩,
    c8_self_similarity ["a", "b"] [[1, 0], [0, 2]] 0 (by simp) (by simp) hdim hnz hmax⟩

end VectorDB
